import Mathlib

/-!
Shallow embedding of the index-resolution algorithms of the ROMS native
ocean-model reader (readers/reader_ROMS_native.py): sigma-layer synthesis,
vertical-transform family selection, vertical layer-range search,
horizontal indexing, block-mode widening, outside-domain masking,
land-mask inversion and result shaping.  Depth and coordinate values are
modelled as rationals, indices as integers; numpy arrays become lists.
-/

namespace RomsNative

/-- Vertical buffer of block around elements (class attribute, line 44). -/
def zbuffer : Int := 1

/-- Minimum of a list (numpy ndarray.min).  The default value stands in for
the numpy error on an empty array and is only reached under a nonemptiness
hypothesis. -/
def listMinQ : List ℚ → ℚ
  | [] => 0
  | a :: t => t.foldl min a

/-- Maximum of a list (numpy ndarray.max). -/
def listMaxQ : List ℚ → ℚ
  | [] => 0
  | a :: t => t.foldl max a

/-- Minimum of an integer index list (numpy ndarray.min). -/
def listMinI : List Int → Int
  | [] => 0
  | a :: t => t.foldl min a

/-- Maximum of an integer index list (numpy ndarray.max). -/
def listMaxI : List Int → Int
  | [] => 0
  | a :: t => t.foldl max a

lemma foldl_min_le_init {α : Type} [LinearOrder α] :
    ∀ (t : List α) (a : α), t.foldl min a ≤ a
  | [], _ => le_refl _
  | b :: t, a => le_trans (foldl_min_le_init t (min a b)) (min_le_left a b)

lemma foldl_min_le_mem {α : Type} [LinearOrder α] :
    ∀ (t : List α) (a x : α), x ∈ t → t.foldl min a ≤ x
  | [], _, x, hx => absurd hx (List.not_mem_nil x)
  | b :: t, a, x, hx => by
    rcases List.mem_cons.mp hx with h | h
    · subst h
      exact le_trans (foldl_min_le_init t (min a x)) (min_le_right a x)
    · exact foldl_min_le_mem t (min a b) x h

lemma foldl_min_mem {α : Type} [LinearOrder α] :
    ∀ (t : List α) (a : α), t.foldl min a = a ∨ t.foldl min a ∈ t
  | [], a => Or.inl rfl
  | b :: t, a => by
    simp only [List.foldl_cons]
    rcases foldl_min_mem t (min a b) with h | h
    · rcases min_choice a b with h2 | h2
      · exact Or.inl (h.trans h2)
      · refine Or.inr ?_
        rw [h, h2]
        exact List.mem_cons_self b t
    · exact Or.inr (List.mem_cons_of_mem b h)

lemma foldl_max_init_le {α : Type} [LinearOrder α] :
    ∀ (t : List α) (a : α), a ≤ t.foldl max a
  | [], _ => le_refl _
  | b :: t, a => le_trans (le_max_left a b) (foldl_max_init_le t (max a b))

lemma foldl_max_mem_le {α : Type} [LinearOrder α] :
    ∀ (t : List α) (a x : α), x ∈ t → x ≤ t.foldl max a
  | [], _, x, hx => absurd hx (List.not_mem_nil x)
  | b :: t, a, x, hx => by
    rcases List.mem_cons.mp hx with h | h
    · subst h
      exact le_trans (le_max_right a x) (foldl_max_init_le t (max a x))
    · exact foldl_max_mem_le t (max a b) x h

lemma listMinQ_le_of_mem {l : List ℚ} {x : ℚ} (h : x ∈ l) : listMinQ l ≤ x := by
  cases l with
  | nil => exact absurd h (List.not_mem_nil x)
  | cons a t =>
    simp only [listMinQ]
    rcases List.mem_cons.mp h with h1 | h1
    · subst h1
      exact foldl_min_le_init t x
    · exact foldl_min_le_mem t a x h1

lemma listMinQ_mem {l : List ℚ} (h : l ≠ []) : listMinQ l ∈ l := by
  cases l with
  | nil => exact absurd rfl h
  | cons a t =>
    simp only [listMinQ]
    rcases foldl_min_mem t a with h1 | h1
    · rw [h1]
      exact List.mem_cons_self a t
    · exact List.mem_cons_of_mem a h1

lemma le_listMaxQ_of_mem {l : List ℚ} {x : ℚ} (h : x ∈ l) : x ≤ listMaxQ l := by
  cases l with
  | nil => exact absurd h (List.not_mem_nil x)
  | cons a t =>
    simp only [listMaxQ]
    rcases List.mem_cons.mp h with h1 | h1
    · subst h1
      exact foldl_max_init_le t x
    · exact foldl_max_mem_le t a x h1

lemma listMinI_le_of_mem {l : List Int} {x : Int} (h : x ∈ l) : listMinI l ≤ x := by
  cases l with
  | nil => exact absurd h (List.not_mem_nil x)
  | cons a t =>
    simp only [listMinI]
    rcases List.mem_cons.mp h with h1 | h1
    · subst h1
      exact foldl_min_le_init t x
    · exact foldl_min_le_mem t a x h1

lemma le_listMaxI_of_mem {l : List Int} {x : Int} (h : x ∈ l) : x ≤ listMaxI l := by
  cases l with
  | nil => exact absurd h (List.not_mem_nil x)
  | cons a t =>
    simp only [listMaxI]
    rcases List.mem_cons.mp h with h1 | h1
    · subst h1
      exact foldl_max_init_le t x
    · exact foldl_max_mem_le t a x h1

/-- Leftmost insertion point of x in a sorted list (Python bisect.bisect_left,
line 19 import): for a sorted list this is the number of elements strictly
below x, here computed as the length of the leading run of such elements. -/
def bisect_left : List ℚ → ℚ → Nat
  | [], _ => 0
  | a :: t, x => if a < x then bisect_left t x + 1 else 0

lemma bisect_left_le_length (l : List ℚ) (x : ℚ) : bisect_left l x ≤ l.length := by
  induction l with
  | nil => simp [bisect_left]
  | cons a t ih =>
    simp only [bisect_left, List.length_cons]
    split
    · omega
    · omega

lemma getD_lt_of_lt_bisect (l : List ℚ) (x d : ℚ) :
    ∀ i, i < bisect_left l x → l.getD i d < x := by
  induction l with
  | nil =>
    intro i h
    simp [bisect_left] at h
  | cons a t ih =>
    intro i h
    simp only [bisect_left] at h
    by_cases ha : a < x
    · rw [if_pos ha] at h
      cases i with
      | zero =>
        simp only [List.getD_cons_zero]
        exact ha
      | succ j =>
        simp only [List.getD_cons_succ]
        exact ih j (by omega)
    · rw [if_neg ha] at h
      exact absurd h (Nat.not_lt_zero i)

lemma le_getD_bisect (l : List ℚ) (x d : ℚ) (h : bisect_left l x < l.length) :
    x ≤ l.getD (bisect_left l x) d := by
  induction l with
  | nil => simp [bisect_left] at h
  | cons a t ih =>
    by_cases ha : a < x
    · simp only [bisect_left, if_pos ha] at h ⊢
      simp only [List.getD_cons_succ]
      refine ih ?_
      simp only [List.length_cons] at h
      omega
    · simp only [bisect_left, if_neg ha, List.getD_cons_zero]
      exact not_lt.mp ha

lemma getD_range_map (f : Nat → ℚ) :
    ∀ (n i : Nat), i < n → ∀ d, ((List.range n).map f).getD i d = f i := by
  intro n
  induction n generalizing f with
  | zero =>
    intro i h d
    exact absurd h (Nat.not_lt_zero i)
  | succ m ih =>
    intro i h d
    rw [List.range_succ_eq_map, List.map_cons, List.map_map]
    cases i with
    | zero => simp only [List.getD_cons_zero]
    | succ j =>
      simp only [List.getD_cons_succ]
      rw [ih (f ∘ Nat.succ) j (by omega) d]
      rfl

/-- Synthesized sigma layer centers used when s_rho is absent (line 71):
(np.arange(num_sigma) + 0.5 - num_sigma) / num_sigma. -/
def synth_sigma (n : Nat) : List ℚ :=
  (List.range n).map (fun i : Nat => ((i : ℚ) + 1 / 2 - (n : ℚ)) / (n : ℚ))

lemma synth_sigma_getD (n i : Nat) (h : i < n) (d : ℚ) :
    (synth_sigma n).getD i d = ((i : ℚ) + 1 / 2 - (n : ℚ)) / (n : ℚ) := by
  unfold synth_sigma
  exact getD_range_map _ n i h d

/-- C6: when explicit sigma layer centers are absent the constructor
synthesizes (i + 0.5 - n) / n for i in [0, n); for every n >= 1 the result
has length n, is strictly increasing, starts above -1, ends below 0, and
the mean of the first and last values is exactly -1/2. -/
theorem c6_synth_sigma (n : Nat) (hn : 1 ≤ n) :
    (synth_sigma n).length = n ∧
    (∀ j, j < n → ∀ i, i < j →
      (synth_sigma n).getD i 0 < (synth_sigma n).getD j 0) ∧
    (-1 : ℚ) < (synth_sigma n).getD 0 0 ∧
    (synth_sigma n).getD (n - 1) 0 < 0 ∧
    ((synth_sigma n).getD 0 0 + (synth_sigma n).getD (n - 1) 0) / 2 = -(1 / 2) := by
  have hn0 : (0 : ℚ) < (n : ℚ) := by exact_mod_cast hn
  have hne : (n : ℚ) ≠ 0 := ne_of_gt hn0
  have hlast : ((n - 1 : ℕ) : ℚ) = (n : ℚ) - 1 := by
    push_cast [hn]
    ring
  refine ⟨by simp only [synth_sigma, List.length_map, List.length_range], ?_, ?_, ?_, ?_⟩
  · intro j hj i hij
    rw [synth_sigma_getD n i (lt_trans hij hj) 0, synth_sigma_getD n j hj 0]
    have hij2 : (i : ℚ) < (j : ℚ) := by exact_mod_cast hij
    rw [div_lt_div_iff₀ hn0 hn0]
    have := mul_lt_mul_of_pos_right (show (i : ℚ) + 1 / 2 - n < (j : ℚ) + 1 / 2 - n by linarith) hn0
    linarith
  · rw [synth_sigma_getD n 0 (by omega) 0]
    rw [lt_div_iff₀ hn0]
    push_cast
    linarith
  · rw [synth_sigma_getD n (n - 1) (by omega) 0]
    apply div_neg_of_neg_of_pos
    · rw [hlast]
      linarith
    · exact hn0
  · rw [synth_sigma_getD n 0 (by omega) 0, synth_sigma_getD n (n - 1) (by omega) 0]
    rw [hlast]
    field_simp
    ring

/-- Witness for C6 at n = 4. -/
theorem c6_synth_sigma_witness :
    1 ≤ 4 ∧
    ((synth_sigma 4).length = 4 ∧
     (∀ j, j < 4 → ∀ i, i < j →
       (synth_sigma 4).getD i 0 < (synth_sigma 4).getD j 0) ∧
     (-1 : ℚ) < (synth_sigma 4).getD 0 0 ∧
     (synth_sigma 4).getD (4 - 1) 0 < 0 ∧
     ((synth_sigma 4).getD 0 0 + (synth_sigma 4).getD (4 - 1) 0) / 2 = -(1 / 2)) :=
  ⟨by decide, c6_synth_sigma 4 (by decide)⟩

/-- The three vertical-transform families the reader can select
(vgrid.s_coordinate, s_coordinate_2, s_coordinate_4). -/
inductive SCoordinate where
  | s_coordinate
  | s_coordinate_2
  | s_coordinate_4
deriving DecidableEq

/-- Lines 73-92: transform family selected from the (Vtransform, Vstretching)
attribute pair; none models attributes that are absent or unreadable (the
except branch). -/
def select_s_coordinate : Option (Int × Int) → SCoordinate
  | none => SCoordinate.s_coordinate
  | some p =>
    if p.1 = 1 ∧ p.2 = 1 then SCoordinate.s_coordinate
    else if p.1 = 2 ∧ p.2 = 2 then SCoordinate.s_coordinate_2
    else if p.1 = 2 ∧ p.2 = 4 then SCoordinate.s_coordinate_4
    else SCoordinate.s_coordinate

/-- C7: the transform family is selected by exact pair match
(1,1) -> family A, (2,2) -> family B, (2,4) -> family C; every other pair,
and absent or unreadable attributes, yield family A, and selection is a
total function, so construction never fails for this reason. -/
theorem c7_transform_selection :
    select_s_coordinate (some (1, 1)) = SCoordinate.s_coordinate ∧
    select_s_coordinate (some (2, 2)) = SCoordinate.s_coordinate_2 ∧
    select_s_coordinate (some (2, 4)) = SCoordinate.s_coordinate_4 ∧
    select_s_coordinate none = SCoordinate.s_coordinate ∧
    ∀ vt vs : Int,
      (vt, vs) ∉ ([(1, 1), (2, 2), (2, 4)] : List (Int × Int)) →
      select_s_coordinate (some (vt, vs)) = SCoordinate.s_coordinate := by
  refine ⟨by decide, by decide, by decide, rfl, ?_⟩
  intro vt vs h
  simp only [List.mem_cons, List.not_mem_nil, or_false, Prod.mk.injEq] at h
  push_neg at h
  obtain ⟨h1, h2, h3⟩ := h
  simp only [select_s_coordinate]
  split_ifs with g1 g2 g3
  · rfl
  · exact absurd (And.intro g2.1 g2.2) (by tauto)
  · exact absurd (And.intro g3.1 g3.2) (by tauto)
  · rfl

/-- Witness for C7 at the pair (3, 7). -/
theorem c7_transform_selection_witness :
    ((3, 7) : Int × Int) ∉ ([(1, 1), (2, 2), (2, 4)] : List (Int × Int)) ∧
    select_s_coordinate (some (3, 7)) = SCoordinate.s_coordinate :=
  ⟨by decide, c7_transform_selection.2.2.2.2 3 7 (by decide)⟩

/-- Land mask inversion v -> 1 - v (line 230). -/
def invert_mask (vs : List Int) : List Int := vs.map (fun v => 1 - v)

/-- Lines 229-230: when the land binary mask is among the extracted
variables, its values are inverted; every other entry is unchanged. -/
def postprocess_land_mask (vars : String → Option (List Int)) :
    String → Option (List Int) :=
  if (vars "land_binary_mask").isSome then
    fun k =>
      if k = "land_binary_mask" then (vars k).map invert_mask else vars k
  else vars

lemma invert_mask_invert_mask (vs : List Int) :
    invert_mask (invert_mask vs) = vs := by
  unfold invert_mask
  rw [List.map_map]
  have h : ((fun v : Int => 1 - v) ∘ fun v : Int => 1 - v) = id := by
    funext v
    simp only [Function.comp, id]
    omega
  rw [h, List.map_id]

/-- C8: whenever the land binary mask is among the extracted results its
values are inverted by v -> 1 - v, other entries are untouched, and the
inversion is an involution. -/
theorem c8_land_mask_inversion (vars : String → Option (List Int))
    (vs : List Int) (h : vars "land_binary_mask" = some vs) :
    postprocess_land_mask vars "land_binary_mask" = some (invert_mask vs) ∧
    (∀ k, k ≠ "land_binary_mask" → postprocess_land_mask vars k = vars k) ∧
    invert_mask (invert_mask vs) = vs := by
  have hs : (vars "land_binary_mask").isSome = true := by
    rw [h]
    rfl
  unfold postprocess_land_mask
  rw [if_pos hs]
  refine ⟨by simp [h], ?_, invert_mask_invert_mask vs⟩
  intro k hk
  simp [hk]

/-- Witness for C8 on a dictionary holding a land mask [0, 1]. -/
theorem c8_land_mask_inversion_witness :
    (fun k => if k = "land_binary_mask" then some [0, 1] else none :
      String → Option (List Int)) "land_binary_mask" = some [0, 1] ∧
    (postprocess_land_mask
        (fun k => if k = "land_binary_mask" then some [0, 1] else none)
        "land_binary_mask" = some (invert_mask [0, 1]) ∧
     (∀ k, k ≠ "land_binary_mask" →
       postprocess_land_mask
          (fun k2 => if k2 = "land_binary_mask" then some [0, 1] else none) k
         = (fun k2 => if k2 = "land_binary_mask" then some [0, 1] else none) k) ∧
     invert_mask (invert_mask [0, 1]) = [0, 1]) :=
  ⟨by simp, c8_land_mask_inversion
    (fun k => if k = "land_binary_mask" then some [0, 1] else none) [0, 1] (by simp)⟩

/-- State carrying the public name attribute of the reader. -/
structure ReaderState where
  name : String

/-- Lines 46-54: the initial name is the optional display name when given,
else the filename. -/
def set_initial_name (filename : String) (nm : Option String) : ReaderState :=
  ⟨nm.getD filename⟩

/-- Line 131: the name is unconditionally overwritten. -/
def set_final_name (s : ReaderState) : ReaderState :=
  { s with name := "roms native" }

/-- Constructor name handling: a missing filename is a fatal error (line 49);
otherwise the name set from the arguments is later overwritten. -/
def init_name (filename : Option String) (nm : Option String) :
    Except String String :=
  match filename with
  | none => Except.error "Need filename as argument to constructor"
  | some f => Except.ok (set_final_name (set_initial_name f nm)).name

/-- C9: every successful construction ends with the public name equal to
the literal string, for every filename and every optional display name,
while a missing filename is a construction error. -/
theorem c9_reader_name (f : String) (nm : Option String) :
    init_name (some f) nm = Except.ok "roms native" ∧
    init_name none nm = Except.error "Need filename as argument to constructor" :=
  ⟨rfl, rfl⟩

/-- Diagonal of a 2-D fetch result (lines 217-218): the outer-product
indexing of netCDF returns a matrix whose diagonal holds the paired
(row, col) selections. -/
def diagonal (m : List (List ℚ)) : List ℚ :=
  (List.range m.length).map (fun i => (m.getD i []).getD i 0)

/-- np.ma.array(data, ndmin=2) on 1-D data (line 221): prepend an axis,
giving shape (1, n). -/
def ndmin2 (d : List ℚ) : List (List ℚ) := [d]

/-- Point-mode value shaping (lines 217-221): the raw fetch reduced to its
diagonal, then promoted to a 2-D array. -/
def point_mode_value (raw : List (List ℚ)) : List (List ℚ) :=
  ndmin2 (diagonal raw)

/-- C10: every point-mode per-variable value has at least two dimensions:
for a fetch over n points the result has shape (1, n), never a 1-D
length-n vector. -/
theorem c10_ndmin2_shape (raw : List (List ℚ)) :
    (point_mode_value raw).length = 1 ∧
    ∀ r ∈ point_mode_value raw, r.length = raw.length := by
  refine ⟨rfl, ?_⟩
  intro r hr
  simp only [point_mode_value, ndmin2, List.mem_singleton] at hr
  subst hr
  simp [diagonal]

/-- Lines 194-196: in point mode the horizontal index of every point
flagged outside the domain is set to 0 before the fetch. -/
def remap_outside (inds : List Int) (outside : List Nat) : List Int :=
  (List.range inds.length).map
    (fun i => if i ∈ outside then 0 else inds.getD i 0)

/-- The mask created by np.ma.array(data, ndmin=2, mask=False) for 1-D data
of length n: a 2-D boolean array of shape (1, n), all False. -/
def ma_ndmin2_mask (n : Nat) : List (List Bool) := [List.replicate n false]

/-- numpy assignment mask[positions] = True on a 2-D mask: each listed
index selects a whole row along axis 0, and an index beyond axis 0 raises
IndexError. -/
def set_mask_rows (mask : List (List Bool)) (rows : List Nat) :
    Except String (List (List Bool)) :=
  rows.foldl
    (fun acc r =>
      match acc with
      | Except.error e => Except.error e
      | Except.ok m =>
        if r < m.length then
          Except.ok (m.set r (List.replicate (m.getD r []).length true))
        else Except.error "IndexError")
    (Except.ok mask)

/-- Lines 220-223 in point mode: build the (1, n) all-False mask of the
ndmin=2 masked array, then assign True at the outside positions, which
numpy applies to rows of axis 0. -/
def point_mode_mask (n : Nat) (outside : List Nat) :
    Except String (List (List Bool)) :=
  set_mask_rows (ma_ndmin2_mask n) outside

/-- The mask the claim describes: True exactly at the flagged positions,
False elsewhere. -/
def point_mode_mask_claimed (n : Nat) (outside : List Nat) : List Bool :=
  (List.range n).map (fun i => decide (i ∈ outside))

/-- C4 (code bug): remapping outside points to index 0 before the fetch
works as claimed, but the masking does not: on the (1, n) ndmin=2 masked
array the assignment mask[outside] = True selects rows of axis 0, so with
three query points and point 1 flagged outside it raises IndexError, and
with point 0 flagged outside it masks all three points, while the claim
requires the mask [True, False, False]. -/
theorem c4_outside_mask_bug :
    remap_outside [7, 9, 11] [1] = [7, 0, 11] ∧
    point_mode_mask 3 [1] = Except.error "IndexError" ∧
    point_mode_mask 3 [0] = Except.ok [[true, true, true]] ∧
    point_mode_mask_claimed 3 [0] = [true, false, false] ∧
    ([true, true, true] : List Bool) ≠ [true, false, false] :=
  ⟨rfl, rfl, rfl, rfl, by decide⟩

/-- Leftmost insertion point of the minimum requested depth in the
per-layer maxima, widened and clamped (lines 178-179). -/
def indz_min (zmaxs : List ℚ) (zmin : ℚ) : Int :=
  max 0 ((bisect_left zmaxs zmin : Int) - zbuffer - 1)

/-- Leftmost insertion point of the maximum requested depth in the
per-layer minima, widened and clamped (lines 180-182). -/
def indz_max (num_layers : Nat) (zmins : List ℚ) (zmax : ℚ) : Int :=
  min ((num_layers : Int) - 1) ((bisect_left zmins zmax : Int) + zbuffer + 1)

/-- Lower bound as the claim words it: the binary-search insertion point
expanded outward by the vertical buffer of exactly one layer, clamped. -/
def indz_min_claimed (zmaxs : List ℚ) (zmin : ℚ) : Int :=
  max 0 ((bisect_left zmaxs zmin : Int) - zbuffer)

/-- Result of the vertical layer range resolution. -/
inductive VerticalRes where
  | surface (indz : Nat) (z_echo : List ℚ)
  | general (indz_lo indz_hi : Int)
deriving DecidableEq

/-- Lines 159-183: vertical layer range resolution.  The per-layer minima
and maxima zmins and zmaxs come from the external sigma transform and are
passed in; the fast path, taken when the minimum requested depth equals 0,
never consults them. -/
def resolve_vertical (num_layers : Nat) (zmins zmaxs : List ℚ)
    (z : List ℚ) : VerticalRes :=
  if listMinQ z = 0 then VerticalRes.surface (num_layers - 1) z
  else VerticalRes.general (indz_min zmaxs (listMinQ z))
    (indz_max num_layers zmins (listMaxQ z))

/-- C2 counterexample: with requested depths [0, 1] the minimum is 0, so
the code takes the surface fast path although not every requested depth
equals 0. -/
theorem c2_fast_path_cex :
    resolve_vertical 5 [] [] [0, 1] = VerticalRes.surface 4 [0, 1] ∧
    ¬ (∀ a ∈ ([0, 1] : List ℚ), a = 0) := by
  constructor
  · decide
  · intro h
    have h1 := h 1 (by simp)
    norm_num at h1

/-- C2 amended: the fast path is taken exactly when the minimum requested
depth equals 0; under the convention that requested depths are
nonpositive this coincides with every depth equal to 0; the fast path
resolves to the topmost layer index and echoes z unchanged, independent
of the transform output. -/
theorem c2_fast_path_amended (num_layers : Nat) (zmins zmaxs z : List ℚ)
    (hz : z ≠ []) (hnp : ∀ a ∈ z, a ≤ 0) :
    (resolve_vertical num_layers zmins zmaxs z
        = VerticalRes.surface (num_layers - 1) z ↔ ∀ a ∈ z, a = 0) ∧
    (listMinQ z = 0 → ∀ zmins2 zmaxs2 : List ℚ,
      resolve_vertical num_layers zmins2 zmaxs2 z
        = VerticalRes.surface (num_layers - 1) z) := by
  constructor
  · constructor
    · intro h a ha
      by_cases hc : listMinQ z = 0
      · have h1 : (0 : ℚ) ≤ a := by
          rw [← hc]
          exact listMinQ_le_of_mem ha
        have h2 := hnp a ha
        linarith
      · unfold resolve_vertical at h
        rw [if_neg hc] at h
        simp at h
    · intro h
      have h0 : listMinQ z = 0 := h _ (listMinQ_mem hz)
      unfold resolve_vertical
      rw [if_pos h0]
  · intro h0 zmins2 zmaxs2
    unfold resolve_vertical
    rw [if_pos h0]

/-- Witness for C2 amended at z = [0]. -/
theorem c2_fast_path_amended_witness :
    (([0] : List ℚ) ≠ [] ∧ ∀ a ∈ ([0] : List ℚ), a ≤ 0) ∧
    ((resolve_vertical 5 [] [] [0] = VerticalRes.surface 4 [0] ↔
        ∀ a ∈ ([0] : List ℚ), a = 0) ∧
     (listMinQ [0] = 0 → ∀ zmins2 zmaxs2 : List ℚ,
       resolve_vertical 5 zmins2 zmaxs2 [0] = VerticalRes.surface 4 [0])) :=
  ⟨⟨by decide, by decide⟩, c2_fast_path_amended 5 [] [] [0] (by decide) (by decide)⟩

/-- np.arange(a, b) over integers: a, a+1, ..., up to but excluding b. -/
def arange (a b : Int) : List Int :=
  (List.range (b - a).toNat).map (fun i : Nat => a + (i : Int))

/-- Lines 190-193: block-mode widening of a horizontal index array into a
covering contiguous range; arange excludes its stop value. -/
def blockRange (buffer : Int) (inds : List Int) (dim : Nat) : List Int :=
  arange (max 0 (listMinI inds - buffer))
    (min (listMaxI inds + buffer) (dim : Int))

/-- The range the claim words describe: [min - buffer, max + buffer]
clamped to [0, dim - 1], inclusive on both ends. -/
def blockRange_claimed (buffer : Int) (inds : List Int) (dim : Nat) : List Int :=
  arange (max 0 (listMinI inds - buffer))
    (min (listMaxI inds + buffer) ((dim : Int) - 1) + 1)

lemma mem_arange {a b e : Int} : e ∈ arange a b ↔ a ≤ e ∧ e < b := by
  unfold arange
  simp only [List.mem_map, List.mem_range]
  constructor
  · rintro ⟨i, hi, rfl⟩
    omega
  · intro h
    exact ⟨(e - a).toNat, by omega, by omega⟩

/-- C3 counterexample: a single index 5 with buffer 2 on a grid of size 20
produces indices 3..6 (the stop of arange is exclusive), not the claimed
covering range 3..7. -/
theorem c3_block_range_cex :
    blockRange 2 [5] 20 = [3, 4, 5, 6] ∧
    blockRange_claimed 2 [5] 20 = [3, 4, 5, 6, 7] ∧
    blockRange 2 [5] 20 ≠ blockRange_claimed 2 [5] 20 := by
  refine ⟨by decide, by decide, by decide⟩

/-- C3 amended: block mode widens each index array into the contiguous
range from max(0, min - buffer) up to but excluding min(max + buffer, dim),
so the upper side is effectively widened by buffer - 1; every produced
index is clamped within [0, dim - 1] for every input, and for buffer >= 1
every original in-grid index is covered. -/
theorem c3_block_range_amended (buffer : Int) (inds : List Int) (dim : Nat)
    (hb : 1 ≤ buffer) :
    (∀ e ∈ blockRange buffer inds dim, 0 ≤ e ∧ e ≤ (dim : Int) - 1) ∧
    (∀ e : Int, e ∈ blockRange buffer inds dim ↔
      max 0 (listMinI inds - buffer) ≤ e ∧
        e < min (listMaxI inds + buffer) (dim : Int)) ∧
    (∀ i ∈ inds, 0 ≤ i → i < (dim : Int) → i ∈ blockRange buffer inds dim) := by
  have hmem : ∀ e : Int, e ∈ blockRange buffer inds dim ↔
      max 0 (listMinI inds - buffer) ≤ e ∧
        e < min (listMaxI inds + buffer) (dim : Int) := by
    intro e
    unfold blockRange
    exact mem_arange
  refine ⟨?_, hmem, ?_⟩
  · intro e he
    have h := (hmem e).mp he
    omega
  · intro i hi h0 hdim
    rw [hmem i]
    have h1 := listMinI_le_of_mem hi
    have h2 := le_listMaxI_of_mem hi
    omega

/-- Witness for C3 amended at buffer 2, indices [5], grid size 20. -/
theorem c3_block_range_amended_witness :
    (1 : Int) ≤ 2 ∧
    ((∀ e ∈ blockRange 2 [5] 20, 0 ≤ e ∧ e ≤ (20 : Int) - 1) ∧
     (∀ e : Int, e ∈ blockRange 2 [5] 20 ↔
       max 0 (listMinI [5] - 2) ≤ e ∧
         e < min (listMaxI [5] + 2) (20 : Int)) ∧
     (∀ i ∈ ([5] : List Int), 0 ≤ i → i < (20 : Int) → i ∈ blockRange 2 [5] 20)) :=
  ⟨by decide, c3_block_range_amended 2 [5] 20 (by decide)⟩

/-- Line 155: integer horizontal index floor((coord - min) / delta). -/
def hIndex (xmin delta coord : ℚ) : Int := Int.floor ((coord - xmin) / delta)

/-- Lines 237-242: coordinates echoed in the result dictionary; block mode
returns the raw index range, point mode recomputes min + (index - 1) * delta. -/
def coordEcho (block : Bool) (xmin delta : ℚ) (inds : List Int) : List ℚ :=
  if block then inds.map (fun i : Int => (i : ℚ))
  else inds.map (fun i : Int => xmin + ((i : ℚ) - 1) * delta)

/-- C5: horizontal indices are the floor of (coord - min) / delta, which is
the nearest lower cell with no interpolation; in point mode the echoed
coordinate is min + (index - 1) * delta, exactly one cell below the left
edge of the resolved cell; in block mode the echo is the raw index range. -/
theorem c5_horizontal_index (xmin delta x : ℚ) (hd : 0 < delta)
    (inds : List Int) :
    xmin + (hIndex xmin delta x : ℚ) * delta ≤ x ∧
    x < xmin + ((hIndex xmin delta x : ℚ) + 1) * delta ∧
    coordEcho false xmin delta inds
      = inds.map (fun i : Int => xmin + ((i : ℚ) - 1) * delta) ∧
    coordEcho true xmin delta inds = inds.map (fun i : Int => (i : ℚ)) ∧
    ∀ i ∈ inds, xmin + ((i : ℚ) - 1) * delta
      = (xmin + (i : ℚ) * delta) - delta := by
  have hne : delta ≠ 0 := ne_of_gt hd
  refine ⟨?_, ?_, rfl, rfl, ?_⟩
  · have h1 : ((hIndex xmin delta x : Int) : ℚ) ≤ (x - xmin) / delta :=
      Int.floor_le _
    have h2 := mul_le_mul_of_nonneg_right h1 (le_of_lt hd)
    rw [div_mul_cancel₀ _ hne] at h2
    linarith
  · have h1 : (x - xmin) / delta < ((hIndex xmin delta x : Int) : ℚ) + 1 :=
      Int.lt_floor_add_one _
    have h2 := mul_lt_mul_of_pos_right h1 hd
    rw [div_mul_cancel₀ _ hne] at h2
    linarith
  · intro i _
    ring

/-- Witness for C5 at xmin 0, delta 1, coordinate 7/2, indices [3]. -/
theorem c5_horizontal_index_witness :
    (0 : ℚ) < 1 ∧
    ((0 : ℚ) + (hIndex 0 1 (7 / 2) : ℚ) * 1 ≤ 7 / 2 ∧
     (7 / 2 : ℚ) < 0 + ((hIndex 0 1 (7 / 2) : ℚ) + 1) * 1 ∧
     coordEcho false 0 1 [3]
       = [3].map (fun i : Int => (0 : ℚ) + ((i : ℚ) - 1) * 1) ∧
     coordEcho true 0 1 [3] = [3].map (fun i : Int => (i : ℚ)) ∧
     ∀ i ∈ ([3] : List Int), (0 : ℚ) + ((i : ℚ) - 1) * 1
       = ((0 : ℚ) + (i : ℚ) * 1) - 1) :=
  ⟨by decide, c5_horizontal_index 0 1 (7 / 2) (by decide) [3]⟩

/-- Per-layer minima of the depth profiles, np.min(z_profiles, axis=1)
(line 175). -/
def zminsOf (z_profiles : List (List ℚ)) : List ℚ :=
  z_profiles.map listMinQ

/-- Per-layer maxima of the depth profiles, np.max(z_profiles, axis=1)
(line 176). -/
def zmaxsOf (z_profiles : List (List ℚ)) : List ℚ :=
  z_profiles.map listMaxQ

/-- C1 counterexample: with per-layer maxima [-20, -15, -10, -5, -1] and
minimum requested depth -5, the insertion point is 3; the code widens by
zbuffer + 1 = 2 and returns lower bound 1, while a widening by exactly one
layer, as the claim states, would return 2. -/
theorem c1_buffer_widening_cex :
    indz_min [(-20 : ℚ), -15, -10, -5, -1] (-5) = 1 ∧
    indz_min_claimed [(-20 : ℚ), -15, -10, -5, -1] (-5) = 2 ∧
    indz_min [(-20 : ℚ), -15, -10, -5, -1] (-5)
      ≠ indz_min_claimed [(-20 : ℚ), -15, -10, -5, -1] (-5) := by
  refine ⟨by decide, by decide, by decide⟩

/-- The amended C1 property for per-layer minima and maxima zmins, zmaxs of
length n and requested depths z: the code bounds equal the binary-search
insertion points widened outward by zbuffer + 1 = 2 and clamped; both lie
in [0, n-1]; removing the zbuffer part of the widening (keeping one layer)
still yields a range covering every requested depth; and the resolved
range has at least two layers. -/
def depth_range_ok (n : Nat) (zmins zmaxs z : List ℚ) : Prop :=
  indz_min zmaxs (listMinQ z)
      = max 0 ((bisect_left zmaxs (listMinQ z) : Int) - 2) ∧
  indz_max n zmins (listMaxQ z)
      = min ((n : Int) - 1) ((bisect_left zmins (listMaxQ z) : Int) + 2) ∧
  0 ≤ indz_min zmaxs (listMinQ z) ∧
  indz_max n zmins (listMaxQ z) ≤ (n : Int) - 1 ∧
  (∀ zk ∈ z,
    zmins.getD (max 0 ((bisect_left zmaxs (listMinQ z) : Int) - 1)).toNat 0
        ≤ zk ∧
    zk ≤ zmaxs.getD
        (min ((n : Int) - 1) ((bisect_left zmins (listMaxQ z) : Int) + 1)).toNat 0) ∧
  1 ≤ indz_max n zmins (listMaxQ z) - indz_min zmaxs (listMinQ z)

/-- C1 amended: the general depth search takes the leftmost insertion point
of the minimum requested depth in the per-layer maxima and of the maximum
requested depth in the per-layer minima, widens both outward by
zbuffer + 1 = 2 layers (not 1), and clamps to [0, n-1]; for depths inside
the water column the range minus the zbuffer widening still covers every
requested depth, and the resolved range spans at least two layers whenever
n >= 2. -/
theorem c1_depth_range_amended (n : Nat) (zmins zmaxs z : List ℚ)
    (hminlen : zmins.length = n) (hmaxlen : zmaxs.length = n)
    (hn : 2 ≤ n)
    (hmono : ∀ j, j < n → ∀ i, i ≤ j → zmins.getD i 0 ≤ zmins.getD j 0)
    (hpt : ∀ i, i < n → zmins.getD i 0 ≤ zmaxs.getD i 0)
    (hz : z ≠ [])
    (hcol : ∀ zk ∈ z, zmins.getD 0 0 ≤ zk ∧ zk ≤ zmaxs.getD (n - 1) 0) :
    depth_range_ok n zmins zmaxs z := by
  unfold depth_range_ok indz_min indz_max
  simp only [zbuffer]
  have hAn : bisect_left zmaxs (listMinQ z) ≤ n :=
    hmaxlen ▸ bisect_left_le_length zmaxs (listMinQ z)
  have hBn : bisect_left zmins (listMaxQ z) ≤ n :=
    hminlen ▸ bisect_left_le_length zmins (listMaxQ z)
  have hAB : bisect_left zmaxs (listMinQ z) ≤ bisect_left zmins (listMaxQ z) := by
    by_contra hcon
    push_neg at hcon
    have h1 : zmaxs.getD (bisect_left zmins (listMaxQ z)) 0 < listMinQ z :=
      getD_lt_of_lt_bisect zmaxs (listMinQ z) 0 _ hcon
    have hBlt : bisect_left zmins (listMaxQ z) < n := lt_of_lt_of_le hcon hAn
    have h2 : listMaxQ z ≤ zmins.getD (bisect_left zmins (listMaxQ z)) 0 :=
      le_getD_bisect zmins (listMaxQ z) 0 (by rw [hminlen]; exact hBlt)
    have h3 := hpt _ hBlt
    obtain ⟨a, ha⟩ := List.exists_mem_of_ne_nil z hz
    have h4 : listMinQ z ≤ listMaxQ z :=
      le_trans (listMinQ_le_of_mem ha) (le_listMaxQ_of_mem ha)
    linarith
  refine ⟨by omega, by omega, by omega, by omega, ?_, by omega⟩
  intro zk hzk
  constructor
  · by_cases hA0 : bisect_left zmaxs (listMinQ z) = 0
    · have hL0 : (max 0 ((bisect_left zmaxs (listMinQ z) : Int) - 1)).toNat = 0 := by
        omega
      rw [hL0]
      exact (hcol zk hzk).1
    · have h1 : 1 ≤ bisect_left zmaxs (listMinQ z) :=
        Nat.one_le_iff_ne_zero.mpr hA0
      have hL : (max 0 ((bisect_left zmaxs (listMinQ z) : Int) - 1)).toNat
          = bisect_left zmaxs (listMinQ z) - 1 := by omega
      rw [hL]
      have h2 : zmaxs.getD (bisect_left zmaxs (listMinQ z) - 1) 0 < listMinQ z :=
        getD_lt_of_lt_bisect zmaxs (listMinQ z) 0 _ (by omega)
      have h3 := hpt (bisect_left zmaxs (listMinQ z) - 1) (by omega)
      have h4 : listMinQ z ≤ zk := listMinQ_le_of_mem hzk
      linarith
  · by_cases hBc : bisect_left zmins (listMaxQ z) + 1 ≤ n - 1
    · have hU : (min ((n : Int) - 1)
          ((bisect_left zmins (listMaxQ z) : Int) + 1)).toNat
          = bisect_left zmins (listMaxQ z) + 1 := by omega
      rw [hU]
      have hBlt : bisect_left zmins (listMaxQ z) < n := by omega
      have h1 : listMaxQ z ≤ zmins.getD (bisect_left zmins (listMaxQ z)) 0 :=
        le_getD_bisect zmins (listMaxQ z) 0 (by rw [hminlen]; exact hBlt)
      have h2 : zmins.getD (bisect_left zmins (listMaxQ z)) 0
          ≤ zmins.getD (bisect_left zmins (listMaxQ z) + 1) 0 :=
        hmono _ (by omega) _ (by omega)
      have h3 := hpt (bisect_left zmins (listMaxQ z) + 1) (by omega)
      have h4 : zk ≤ listMaxQ z := le_listMaxQ_of_mem hzk
      linarith
    · have hU : (min ((n : Int) - 1)
          ((bisect_left zmins (listMaxQ z) : Int) + 1)).toNat = n - 1 := by omega
      rw [hU]
      exact (hcol zk hzk).2

/-- Witness for C1 amended on a four-layer column with requested depths
[-30, -15]. -/
theorem c1_depth_range_amended_witness :
    2 ≤ 4 ∧
    depth_range_ok 4 [(-100 : ℚ), -50, -20, -5] [(-80 : ℚ), -40, -10, -1]
      [(-30 : ℚ), -15] :=
  ⟨by decide,
   c1_depth_range_amended 4 [(-100 : ℚ), -50, -20, -5]
     [(-80 : ℚ), -40, -10, -1] [(-30 : ℚ), -15]
     (by decide) (by decide) (by decide) (by decide) (by decide) (by decide)
     (by decide)⟩

end RomsNative
